import Mathlib

/-!
Verification of the Review Enrichment & Retrieval Pipeline.

This file shallowly embeds the core logic of the repository in Lean 4:

* `src/ingestion/date_parser.py` — relative-date resolution (`parse_relative_date`);
* `src/ingestion/reddit_parser.py` — the keyword rating heuristic (`estimate_rating`);
* `src/storage/db.py` — the review/enrichment record store
  (`insert_review`, `insert_enrichment`, `get_reviews`);
* `src/ingestion/parser.py` — file ingestion counting (`ingest_reviews`);
* `src/ingestion/enricher.py` — the batch enrichment processor
  (`processBatches`, `enrich_all_reviews`);
* `src/storage/vector_store.py` — cosine-similarity search (`search_similar`);
* `src/explore/chat.py` — context sourcing of the chat engine (`chatContextReviews`).

Modelling conventions: Python strings are `List Char` where character-level
processing matters, otherwise `String`; floats are idealised as `ℚ` (stored
data) and `ℝ` (derived cosine scores, which involve square roots); SQLite
tables are Lean lists of rows, with `INSERT` appending at the end (rowid
order).  The external annotation service (`utils/bedrock.py`, not part of
the sources) is an explicit oracle parameter of type
`List ReviewRow → Except String (List Enrichment)`, so that theorems can
quantify over every possible remote behaviour allowed by its interface.
-/

/-! ### Text utilities (models of Python `str` operations on `List Char`) -/

/-- Model of Python whitespace (`str.strip` / regex class): the usual ASCII
whitespace characters; the inputs in this code base contain only spaces. -/
def isWs (c : Char) : Bool := c.isWhitespace

/-- Model of Python `str.strip()`. -/
def stripWs (l : List Char) : List Char :=
  ((l.dropWhile isWs).reverse.dropWhile isWs).reverse

/-- Model of Python `str.lower()` (ASCII-adequate for the keyword lists used). -/
def lowerCL (l : List Char) : List Char := l.map Char.toLower

/-- Model of the Python substring test `needle in hay`. -/
def isSubstr (n : List Char) : List Char → Bool
  | [] => n.isEmpty
  | c :: t => n.isPrefixOf (c :: t) || isSubstr n t

/-- Numeric value of a digit run, as Python `int` of the matched group. -/
def digitsVal (ds : List Char) : Nat :=
  ds.foldl (fun a c => 10 * a + (c.toNat - 48)) 0

/-! ### Relative-date resolution (model of `src/ingestion/date_parser.py`)

Python `datetime` values produced by this function are midnight-anchored
days, so a `datetime` is modelled as an `Int` day number and
`timedelta(days = n)` as subtraction of `n`.  `daysFromCivil` converts a
Gregorian calendar date to that day number. -/

/-- Day number of a Gregorian date (days since 1970-01-01, proleptic). -/
def daysFromCivil (y m d : Int) : Int :=
  let y' := if m ≤ 2 then y - 1 else y
  let era := y'.fdiv 400
  let yoe := y' - era * 400
  let mp := (m + 9) % 12
  let doy := (153 * mp + 2).fdiv 5 + d - 1
  let doe := yoe * 365 + yoe.fdiv 4 - yoe.fdiv 100 + doy
  era * 146097 + doe - 719468

/-- The time units accepted by the relative-date patterns. -/
inductive TimeUnitTag where
  | day | week | month | year
deriving DecidableEq

/-- Days subtracted for `num` units, as in the source: `day = num`,
`week = 7*num`, `month = 30*num`, `year = 365*num`. -/
def unitDays (num : Nat) : TimeUnitTag → Int
  | .day => num
  | .week => 7 * num
  | .month => 30 * num
  | .year => 365 * num

/-- Match one of the literal unit words `day|week|month|year` at the head of
the input, returning the unit and the rest (regex alternation; none of the
words is a prefix of another, so order is irrelevant). -/
def matchUnitWord (l : List Char) : Option (TimeUnitTag × List Char) :=
  if "day".toList.isPrefixOf l then some (.day, l.drop 3)
  else if "week".toList.isPrefixOf l then some (.week, l.drop 4)
  else if "month".toList.isPrefixOf l then some (.month, l.drop 5)
  else if "year".toList.isPrefixOf l then some (.year, l.drop 4)
  else none

/-- Does `ago` match here after skipping `\s*` (tail of both regexes)? -/
def agoAfterSpaces (l : List Char) : Bool :=
  "ago".toList.isPrefixOf (l.dropWhile isWs)

/-- Try to match `(\d+)\s*(day|week|month|year)s?\s*ago` starting exactly at
the head of `l`.  `\d+` is greedy and nothing after it can consume a digit,
so the maximal digit run is the only candidate; `s?` is greedy with a
fallback to the empty match. -/
def matchNumUnitHere (l : List Char) : Option (Nat × TimeUnitTag) :=
  let ds := l.takeWhile Char.isDigit
  if ds.isEmpty then none
  else
    let r1 := (l.dropWhile Char.isDigit).dropWhile isWs
    match matchUnitWord r1 with
    | none => none
    | some (u, r2) =>
      match r2 with
      | 's' :: r3 =>
        if agoAfterSpaces r3 then some (digitsVal ds, u)
        else if agoAfterSpaces r2 then some (digitsVal ds, u)
        else none
      | _ => if agoAfterSpaces r2 then some (digitsVal ds, u) else none

/-- Model of `re.search(r'(\d+)\s*(day|week|month|year)s?\s*ago', s)`:
scan start positions left to right. -/
def searchNumUnit : List Char → Option (Nat × TimeUnitTag)
  | [] => none
  | c :: t =>
    match matchNumUnitHere (c :: t) with
    | some r => some r
    | none => searchNumUnit t

/-- Try to match `a\s+(day|week|month|year)\s*ago` starting exactly at the
head of `l` (`\s+` requires at least one whitespace character). -/
def matchArticleUnitHere (l : List Char) : Option TimeUnitTag :=
  match l with
  | 'a' :: r1 =>
    match r1 with
    | c :: _ =>
      if isWs c then
        match matchUnitWord (r1.dropWhile isWs) with
        | some (u, r2) => if agoAfterSpaces r2 then some u else none
        | none => none
      else none
    | [] => none
  | _ => none

/-- Model of `re.search(r'a\s+(day|week|month|year)\s*ago', s)`. -/
def searchArticleUnit : List Char → Option TimeUnitTag
  | [] => none
  | c :: t =>
    match matchArticleUnitHere (c :: t) with
    | some r => some r
    | none => searchArticleUnit t

/-- Model of `parse_relative_date(relative_date, scrape_date)` from
`src/ingestion/date_parser.py`.  The anchor (`scrape_date`) and the result
are day numbers; each branch mirrors one `return` of the source. -/
def parse_relative_date (input : List Char) (anchor : Int) : Int :=
  let s := stripWs (lowerCL input)
  if isSubstr "today".toList s || isSubstr "just now".toList s then anchor
  else if isSubstr "yesterday".toList s then anchor - 1
  else
    match searchNumUnit s with
    | some (n, u) => anchor - unitDays n u
    | none =>
      match searchArticleUnit s with
      | some u => anchor - unitDays 1 u
      | none => anchor

/-- An expression is unparseable when none of the four pattern groups of the
source matches its lowered, stripped form. -/
def unparseableExpr (input : List Char) : Prop :=
  let s := stripWs (lowerCL input)
  isSubstr "today".toList s = false ∧ isSubstr "just now".toList s = false ∧
  isSubstr "yesterday".toList s = false ∧
  searchNumUnit s = none ∧ searchArticleUnit s = none

instance (input : List Char) : Decidable (unparseableExpr input) := by
  unfold unparseableExpr
  exact inferInstance

/-! ### Rating heuristic (model of `RedditParser._estimate_rating` in
`src/ingestion/reddit_parser.py`) -/

/-- Does the lowered comment contain any of the keywords (Python
`any(kw in comment_lower for kw in [...])`)? -/
def containsAny (text : List Char) (kws : List String) : Bool :=
  kws.any (fun k => isSubstr k.toList text)

/-- The strongly-negative keyword tier of `_estimate_rating`. -/
def strongNegativeKws : List String := ["scam", "worst", "terrible", "never again", "avoid"]

/-- The moderately-negative keyword tier of `_estimate_rating`. -/
def moderateNegativeKws : List String := ["bad", "annoyed", "frustrated", "hidden fees", "overcharge"]

/-- The strongly-positive keyword tier of `_estimate_rating`. -/
def strongPositiveKws : List String := ["excellent", "best", "highly recommend", "great deal"]

/-- The moderately-positive keyword tier of `_estimate_rating`. -/
def moderatePositiveKws : List String := ["good", "decent", "satisfied", "helpful"]

/-- Model of `_estimate_rating(comment, sentiment_hints)`.  `hintsOverall` is
the `"overall"` field of the sentiment-hints dict computed by
`_extract_sentiment_hints` (one of `"negative"`, `"positive"`, `"neutral"`);
the heuristic only reads that field.  Ratings are the rational values of the
float literals in the source. -/
def estimate_rating (comment : List Char) (hintsOverall : String) : ℚ :=
  let cl := lowerCL comment
  if containsAny cl strongNegativeKws then 1
  else if containsAny cl moderateNegativeKws then 2
  else if containsAny cl strongPositiveKws then 5
  else if containsAny cl moderatePositiveKws then 4
  else if hintsOverall = "negative" then 5/2
  else if hintsOverall = "positive" then 7/2
  else 3

/-! ### Record store (model of `src/storage/db.py`)

A table is a list of rows in rowid (insertion) order.  `review_date` is an
ISO-format timestamp string in the store; since all stored values come from
`parse_relative_date`, it is modelled as an `Option Int` day number (ISO
strings of equal format compare lexicographically exactly like day numbers;
`NULL` is smallest in SQLite ordering, modelled by `none`). -/

/-- A row of the `reviews` table (the columns written by `insert_review`). -/
structure ReviewRow where
  location_id : String
  source : String
  review_id : String
  rating : ℚ
  review_text : Option String
  reviewer_name : Option String
  reviewer_type : Option String
  review_date : Option Int
  relative_date : Option String
  language : Option String
deriving DecidableEq, Repr

/-- A review dict as passed to `insert_review` (`review.get(...)` may be
absent/None for each key; `source` and `language` have `.get` defaults). -/
structure ReviewRec where
  location_id : Option String
  source : Option String
  review_id : Option String
  rating : Option ℚ
  review_text : Option String
  reviewer_name : Option String
  reviewer_type : Option String
  review_date : Option Int
  relative_date : Option String
  language : Option String
deriving DecidableEq, Repr

/-- Model of `Database.insert_review`: `INSERT OR IGNORE` into a table whose
`review_id` column is `UNIQUE NOT NULL` and whose `location_id` and `rating`
columns are `NOT NULL`.  A duplicate `review_id` or a NULL in a `NOT NULL`
column makes the insert a silent no-op; otherwise the row is appended. -/
def insert_review (st : List ReviewRow) (r : ReviewRec) : List ReviewRow :=
  match r.location_id, r.review_id, r.rating with
  | some loc, some rid, some rat =>
    if st.any (fun row => row.review_id == rid) then st
    else st ++ [{ location_id := loc, source := r.source.getD "google",
                  review_id := rid, rating := rat, review_text := r.review_text,
                  reviewer_name := r.reviewer_name, reviewer_type := r.reviewer_type,
                  review_date := r.review_date, relative_date := r.relative_date,
                  language := some (r.language.getD "en") }]
  | _, _, _ => st

/-- A row of the `enrichments` table (columns written by `insert_enrichment`;
`review_id` is `UNIQUE NOT NULL`). -/
structure Enrichment where
  review_id : String
  topics : List String
  sentiment : Option String
  sentiment_score : Option ℚ
  entities : List String
deriving DecidableEq, Repr

/-- Model of `Database.insert_enrichment`: `INSERT OR REPLACE` keyed by
`review_id` — any existing row with the same key is deleted and the new row
inserted (wholesale replacement, no merge). -/
def insert_enrichment (st : List Enrichment) (e : Enrichment) : List Enrichment :=
  st.filter (fun x => !(x.review_id == e.review_id)) ++ [e]

/-- Key lookup in the enrichments table. -/
def lookupEnr (st : List Enrichment) (id : String) : Option Enrichment :=
  st.find? (fun e => e.review_id == id)

/-- Python truthiness of an optional string argument (`if location_id:`):
`None` and the empty string are falsy. -/
def truthyStr : Option String → Option String
  | none => none
  | some s => if s = "" then none else some s

/-- Python truthiness of an optional numeric argument (`if min_rating:`):
`None` and `0` are falsy. -/
def truthyRat : Option ℚ → Option ℚ
  | none => none
  | some q => if q = 0 then none else some q

/-- Ascending comparison of `review_date` column values: SQLite orders
`NULL` before every value. -/
def optDateLeB : Option Int → Option Int → Bool
  | none, _ => true
  | some _, none => false
  | some a, some b => decide (a ≤ b)

/-- The descending `ORDER BY review_date DESC` relation on rows. -/
def dateDescRel (a b : ReviewRow) : Prop :=
  optDateLeB b.review_date a.review_date = true

instance : DecidableRel dateDescRel := fun a b => by
  unfold dateDescRel; exact inferInstance

instance : IsTotal ReviewRow dateDescRel := by
  constructor
  intro a b
  unfold dateDescRel optDateLeB
  rcases a.review_date with _ | x <;> rcases b.review_date with _ | y <;> simp
  omega

instance : IsTrans ReviewRow dateDescRel := by
  constructor
  intro a b c
  unfold dateDescRel optDateLeB
  rcases a.review_date with _ | x <;> rcases b.review_date with _ | y <;>
    rcases c.review_date with _ | z <;> simp
  omega

/-- Model of `Database.get_reviews(location_id, min_rating, max_rating,
limit)`: `WHERE` filters (with Python-truthiness on the optional arguments),
then `ORDER BY review_date DESC`, then `LIMIT limit`. -/
def get_reviews (db : List ReviewRow) (loc : Option String)
    (minR maxR : Option ℚ) (limit : Nat) : List ReviewRow :=
  let f1 := match truthyStr loc with
    | some l => db.filter (fun r => r.location_id == l)
    | none => db
  let f2 := match truthyRat minR with
    | some m => f1.filter (fun r => decide (m ≤ r.rating))
    | none => f1
  let f3 := match truthyRat maxR with
    | some M => f2.filter (fun r => decide (r.rating ≤ M))
    | none => f2
  (List.insertionSort dateDescRel f3).take limit

/-! ### File ingestion (model of `ReviewParser.ingest_file` in
`src/ingestion/parser.py`): insert each parsed record, counting every record
whose insert call returns (which, with `INSERT OR IGNORE`, is all of them —
silently skipped rows are still counted). -/

/-- Model of the insert loop of `ingest_file` on the already-parsed records. -/
def ingest_reviews (st : List ReviewRow) (l : List ReviewRec) : List ReviewRow × Nat :=
  l.foldl (fun acc r => (insert_review acc.1 r, acc.2 + 1)) (st, 0)

/-! ### Enrichment batch processor (model of `ReviewEnricher.enrich_all_reviews`
in `src/ingestion/enricher.py`)

The remote annotation call `self.bedrock.enrich_reviews_batch(batch)` lives
in `utils/bedrock.py`, which is not among the sources; per the interface
contract it receives one batch and either raises or returns a list of
enrichments (possibly a subset of the request).  It is modelled as an
explicit oracle `List ReviewRow → Except String (List Enrichment)`. -/

/-- Fuel-driven helper for `chunks`: each slice consumes at least one
element, so any fuel of at least the list length yields the batch slicing
`reviews[i:i + batch_size]` for `i in range(0, len(reviews), batch_size)`
(the fuel only makes the recursion structural). -/
def chunksFuel (bs : Nat) : Nat → List α → List (List α)
  | _, [] => []
  | 0, x :: xs => [x :: xs]
  | fuel + 1, x :: xs => (x :: xs.take (bs - 1)) :: chunksFuel bs fuel (xs.drop (bs - 1))

/-- The batch slicing `reviews[i:i + batch_size]` for
`i in range(0, len(reviews), batch_size)`, for a positive batch size
(`range` with step 0 would raise in Python; the default is 20). -/
def chunks (bs : Nat) (l : List α) : List (List α) := chunksFuel bs l.length l

/-- Does a (non-raising) response's review-id set match the request batch?
The source never performs this check; the predicate names the condition the
specification claims is enforced. -/
def respMatches (resp : Except String (List Enrichment)) (batch : List ReviewRow) : Bool :=
  match resp with
  | .ok es => decide (es.map Enrichment.review_id = batch.map ReviewRow.review_id)
  | .error _ => true

/-- The batch loop of `enrich_all_reviews`: for each batch, call the oracle
once; on success insert every returned enrichment and count it; on an
exception log and continue with the next batch.  The accumulator is the
enrichments table together with the running `count`. -/
def processBatches (oracle : List ReviewRow → Except String (List Enrichment)) :
    List (List ReviewRow) → List Enrichment × Nat → List Enrichment × Nat
  | [], acc => acc
  | b :: bs, acc =>
    match oracle b with
    | .ok es => processBatches oracle bs (es.foldl insert_enrichment acc.1, acc.2 + es.length)
    | .error _ => processBatches oracle bs acc

/-- Python `limit or 10000`: `None` and `0` are falsy. -/
def effLimit : Option Nat → Nat
  | none => 10000
  | some n => if n = 0 then 10000 else n

/-- Model of `ReviewEnricher.enrich_all_reviews(location_id, limit)`: the
candidate set is `db.get_reviews(location_id=location_id, limit=limit or
10000)` (all stored reviews, no enrichment-state filter), partitioned into
fixed-size batches and processed by the batch loop. -/
def enrich_all_reviews (oracle : List ReviewRow → Except String (List Enrichment))
    (batchSize : Nat) (db : List ReviewRow) (loc : Option String)
    (limit : Option Nat) (st : List Enrichment) : List Enrichment × Nat :=
  processBatches oracle (chunks batchSize (get_reviews db loc none none (effLimit limit))) (st, 0)

/-! ### Vector store (model of `VectorStore.search_similar` in
`src/storage/vector_store.py`)

Embeddings are rational vectors.  For a query vector `q` and a stored vector
`v`, the source computes the float
`np.dot(q, v) / (np.linalg.norm(q) * np.linalg.norm(v))`; the pair
`simRaw q v = (dot q v, normSq q * normSq v)` determines that value as
`dot / sqrt(normSq-product)`, which keeps every pipeline definition
computable while `score` interprets pairs as real numbers.  A zero
denominator makes the float NaN (`cosineSimVal` returns `none`); NumPy
emits a warning, not an exception. -/

/-- Squared Euclidean norm of a vector. -/
def normSq (v : List ℚ) : ℚ := (v.map (fun x => x * x)).sum

/-- Dot product (`np.dot` of equal-length vectors). -/
def dotQ (a b : List ℚ) : ℚ := (List.zipWith (· * ·) a b).sum

/-- The (numerator, squared-denominator) pair of the cosine similarity. -/
def simRaw (q v : List ℚ) : ℚ × ℚ := (dotQ q v, normSq q * normSq v)

/-- The cosine-similarity value the source computes for one stored vector:
`none` models the NaN produced when the query or the stored vector has zero
norm (division by zero); otherwise the defining pair of the real value. -/
def cosineSimVal (q v : List ℚ) : Option (ℚ × ℚ) :=
  if normSq q = 0 ∨ normSq v = 0 then none else some (simRaw q v)

/-- Real value of a similarity pair: `num / sqrt(densq)`. -/
noncomputable def score (p : ℚ × ℚ) : ℝ := (p.1 : ℝ) / Real.sqrt (p.2 : ℝ)

/-- Decidable comparison of two similarity pairs, agreeing with `score`
comparison whenever both squared denominators are positive (the only case a
search over nonzero-norm vectors can produce; zero-denominator pairs — NaN
scores, whose float comparisons are all false and whose sort placement is
unspecified — are ordered first so that the relation stays total and
transitive). -/
def simLe (x y : ℚ × ℚ) : Bool :=
  if x.2 ≤ 0 then true
  else if y.2 ≤ 0 then false
  else if 0 ≤ x.1 then
    if y.1 < 0 then false else decide (x.1 ^ 2 * y.2 ≤ y.1 ^ 2 * x.2)
  else
    if 0 ≤ y.1 then true else decide (y.1 ^ 2 * x.2 ≤ x.1 ^ 2 * y.2)

/-- The descending order used by `results.sort(key=lambda x: x[1],
reverse=True)` on `(review_id, similarity)` pairs. -/
def simDescRel (a b : String × (ℚ × ℚ)) : Prop := simLe b.2 a.2 = true

instance : DecidableRel simDescRel := fun a b => by
  unfold simDescRel; exact inferInstance

/-- Model of `VectorStore.search_similar`, parameterised by the encoded
query vector: score every stored embedding, sort descending by similarity
(Python's sort is stable, as is `insertionSort`), truncate to `limit`, then
fetch each surviving review by id, skipping ids absent from the reviews
table. -/
def search_similar (db : List ReviewRow) (embs : List (String × List ℚ))
    (qv : List ℚ) (limit : Nat) : List (ReviewRow × (ℚ × ℚ)) :=
  let scored := embs.map (fun p => (p.1, simRaw qv p.2))
  let sorted := List.insertionSort simDescRel scored
  (sorted.take limit).filterMap
    (fun p => (db.find? (fun row => row.review_id == p.1)).map (fun row => (row, p.2)))

/-! ### Chat engine (model of `ChatEngine.chat` in `src/explore/chat.py`) -/

/-- The review-sourcing step of `ChatEngine.chat`: with `use_semantic`, the
top-5 semantic search results (the supplied `location_id` is not used);
otherwise the most recent reviews for `location_id`, `limit=10`. -/
def chatContextReviews (db : List ReviewRow) (embs : List (String × List ℚ))
    (qv : List ℚ) (loc : Option String) (use_semantic : Bool) : List ReviewRow :=
  if use_semantic then (search_similar db embs qv 5).map Prod.fst
  else get_reviews db loc none none 10

/-! ### Concrete fixtures used by witnesses and counterexamples -/

/-- A stored review row with the given id (other columns arbitrary but fixed). -/
def mkRow (rid : String) : ReviewRow :=
  { location_id := "JFK", source := "google", review_id := rid, rating := 5,
    review_text := some "great service", reviewer_name := none,
    reviewer_type := none, review_date := none, relative_date := none,
    language := some "en" }

/-- An enrichment for the given review id. -/
def mkEnr (rid : String) : Enrichment :=
  { review_id := rid, topics := ["service"], sentiment := some "positive",
    sentiment_score := some 1, entities := [] }

/-- A parsed review record with the given id (all `NOT NULL` columns present). -/
def mkRec (rid : String) : ReviewRec :=
  { location_id := some "JFK", source := some "google", review_id := some rid,
    rating := some 5, review_text := some "great service",
    reviewer_name := none, reviewer_type := some "standard",
    review_date := none, relative_date := some "3 days ago",
    language := some "en" }

/-- A one-review store. -/
def sampleDb1 : List ReviewRow := [mkRow "r1"]

/-- A two-review store. -/
def sampleDb2 : List ReviewRow := [mkRow "r1", mkRow "r2"]

/-- A three-review store. -/
def sampleDb3 : List ReviewRow := [mkRow "r1", mkRow "r2", mkRow "r3"]

/-- An enrichments table already containing an enrichment for `r1`. -/
def enrichedStore1 : List Enrichment := [mkEnr "r1"]

/-- An annotation oracle that raises exactly on the batch `[r2]` and answers
every other batch with one enrichment per requested review. -/
def failSecondOracle : List ReviewRow → Except String (List Enrichment) :=
  fun b =>
    if b.map ReviewRow.review_id = ["r2"] then .error "remote call failed"
    else .ok (b.map (fun r => mkEnr r.review_id))

/-- An annotation oracle that always returns a single enrichment for `r1` —
for a two-review batch, a response whose review-id set is a strict subset of
the request. -/
def subsetOracle : List ReviewRow → Except String (List Enrichment) :=
  fun _ => .ok [mkEnr "r1"]

/-- An annotation oracle that succeeds on every batch with a fresh negative
enrichment per review. -/
def rewriteOracle : List ReviewRow → Except String (List Enrichment) :=
  fun b => .ok (b.map (fun r =>
    { review_id := r.review_id, topics := [], sentiment := some "negative",
      sentiment_score := some (-1), entities := [] }))

/-! ## Theorems -/

/-! ### C7 — relative-date resolution -/

/-- C7: with anchor timestamp 2026-01-10, `parse_relative_date` maps
"3 days ago" to 2026-01-07, "a week ago" to 2026-01-03 and "today" to
2026-01-10; and every expression matching none of its patterns (such as
"sometime") resolves to the anchor timestamp itself rather than erroring. -/
theorem parse_relative_date_resolution :
    parse_relative_date "3 days ago".toList (daysFromCivil 2026 1 10) = daysFromCivil 2026 1 7
    ∧ parse_relative_date "a week ago".toList (daysFromCivil 2026 1 10) = daysFromCivil 2026 1 3
    ∧ parse_relative_date "today".toList (daysFromCivil 2026 1 10) = daysFromCivil 2026 1 10
    ∧ parse_relative_date "sometime".toList (daysFromCivil 2026 1 10) = daysFromCivil 2026 1 10
    ∧ ∀ (s : List Char) (anchor : Int),
        unparseableExpr s → parse_relative_date s anchor = anchor := by
  refine ⟨by decide, by decide, by decide, by decide, ?_⟩
  intro s anchor h
  unfold unparseableExpr at h
  obtain ⟨h1, h2, h3, h4, h5⟩ := h
  unfold parse_relative_date
  simp only [h1, h2, h3, h4, h5, Bool.or_self, Bool.false_eq_true, if_false]

/-- Witness for C7: the concrete unparseable expression "sometime soon" at
anchor 42 resolves to 42. -/
theorem parse_relative_date_resolution_witness :
    unparseableExpr "sometime soon".toList
    ∧ parse_relative_date "sometime soon".toList 42 = 42 :=
  ⟨by decide, parse_relative_date_resolution.2.2.2.2 _ 42 (by decide)⟩

/-! ### C8 — strongly-negative tier short-circuits the rating heuristic -/

/-- C8: for every comment text and every sentiment-hint aggregate, a comment
containing a strongly-negative keyword (such as "worst" or "avoid") is rated
1.0, regardless of any positive keywords also present: the strongly-negative
tier is tested before every other tier. -/
theorem estimate_rating_strong_negative_priority
    (comment : List Char) (hintsOverall : String)
    (h : containsAny (lowerCL comment) strongNegativeKws = true) :
    estimate_rating comment hintsOverall = 1 := by
  unfold estimate_rating
  simp only [h, if_true]

/-- Witness for C8: a comment containing "worst" and "avoid" together with
strongly- and moderately-positive keywords, under a positive aggregate hint,
is rated 1.0. -/
theorem estimate_rating_strong_negative_priority_witness :
    containsAny (lowerCL "Worst ever, avoid!! but excellent good deal".toList)
        strongNegativeKws = true
    ∧ estimate_rating "Worst ever, avoid!! but excellent good deal".toList "positive" = 1 :=
  ⟨by decide, estimate_rating_strong_negative_priority _ _ (by decide)⟩

/-! ### Helper lemmas for the record store -/

/-- The store part of `ingest_reviews` is a plain fold of `insert_review`,
and its count part counts every parsed record. -/
theorem ingest_reviews_eq (l : List ReviewRec) :
    ∀ (st : List ReviewRow) (c : Nat),
      l.foldl (fun acc r => (insert_review acc.1 r, acc.2 + 1)) (st, c)
        = (l.foldl insert_review st, c + l.length) := by
  induction l with
  | nil => intro st c; simp
  | cons r t ih =>
    intro st c
    simp only [List.foldl_cons, ih, List.length_cons, Prod.mk.injEq]
    exact ⟨trivial, by omega⟩

/-- `insert_review` appends at most one row. -/
theorem insert_review_length_le (st : List ReviewRow) (r : ReviewRec) :
    (insert_review st r).length ≤ st.length + 1 := by
  unfold insert_review
  rcases r.location_id with _ | loc <;> rcases r.review_id with _ | rid <;>
    rcases r.rating with _ | rat <;> simp
  split <;> simp

/-- Folding `insert_review` grows the store by at most one row per record. -/
theorem foldl_insert_review_length_le (l : List ReviewRec) :
    ∀ st : List ReviewRow, (l.foldl insert_review st).length ≤ st.length + l.length := by
  induction l with
  | nil => intro st; simp
  | cons r t ih =>
    intro st
    calc (t.foldl insert_review (insert_review st r)).length
        ≤ (insert_review st r).length + t.length := ih _
      _ ≤ st.length + 1 + t.length := by
          have := insert_review_length_le st r; omega
      _ = st.length + (r :: t).length := by simp; omega

/-! ### C10 — the ingest count can exceed the rows actually added -/

/-- C10: `ingest_file`'s returned count equals the number of parsed review
records (every insert call returns without raising, because `INSERT OR
IGNORE` silently skips duplicates and constraint violations), the store
grows by at most that count, and for some inputs — here a file whose two
records share one `review_id` — the count strictly exceeds the number of
rows actually added. -/
theorem ingest_count_overcounts :
    (∀ (st : List ReviewRow) (l : List ReviewRec),
        (ingest_reviews st l).2 = l.length
        ∧ (ingest_reviews st l).1.length ≤ st.length + l.length)
    ∧ (ingest_reviews [] [mkRec "d1", mkRec "d1"]).2 = 2
    ∧ (ingest_reviews [] [mkRec "d1", mkRec "d1"]).1.length = 1 := by
  refine ⟨fun st l => ?_, by decide, by decide⟩
  unfold ingest_reviews
  rw [ingest_reviews_eq]
  exact ⟨by simp, foldl_insert_review_length_le l st⟩

/-- A duplicate `review_id` (a row with that id already stored) makes
`insert_review` a strict no-op: the store is returned unchanged. -/
theorem insert_review_noop (st : List ReviewRow) (r : ReviewRec) (rid : String)
    (hid : r.review_id = some rid) (hmem : rid ∈ st.map ReviewRow.review_id) :
    insert_review st r = st := by
  have hany : st.any (fun row => row.review_id == rid) = true := by
    rw [List.any_eq_true]
    obtain ⟨row, hrow, heq⟩ := List.mem_map.1 hmem
    exact ⟨row, hrow, by simp [heq]⟩
  rcases hl : r.location_id with _ | loc <;> rcases ha : r.rating with _ | rat <;>
    simp [insert_review, hl, ha, hid, hany]

/-- `insert_review` never removes ids from the store. -/
theorem ids_subset_insert_review (st : List ReviewRow) (r : ReviewRec) (id : String)
    (h : id ∈ st.map ReviewRow.review_id) :
    id ∈ (insert_review st r).map ReviewRow.review_id := by
  rcases hl : r.location_id with _ | loc <;> rcases hi : r.review_id with _ | rid <;>
    rcases ha : r.rating with _ | rat <;>
    simp only [insert_review, hl, hi, ha] <;> try exact h
  split
  · exact h
  · simp only [List.map_append, List.mem_append]; exact Or.inl h

/-- Ids survive a whole ingestion fold. -/
theorem ids_subset_foldl_insert_review (l : List ReviewRec) :
    ∀ (st : List ReviewRow) (id : String), id ∈ st.map ReviewRow.review_id →
      id ∈ (l.foldl insert_review st).map ReviewRow.review_id := by
  induction l with
  | nil => intro st id h; exact h
  | cons r t ih => intro st id h; exact ih _ _ (ids_subset_insert_review st r id h)

/-- After inserting a record whose `NOT NULL` columns are all present, its
`review_id` is in the store. -/
theorem mem_ids_insert_review_valid (st : List ReviewRow) (r : ReviewRec) (rid : String)
    (hid : r.review_id = some rid) (hl : r.location_id.isSome) (ha : r.rating.isSome) :
    rid ∈ (insert_review st r).map ReviewRow.review_id := by
  rcases hl' : r.location_id with _ | loc
  · rw [hl'] at hl; simp at hl
  rcases ha' : r.rating with _ | rat
  · rw [ha'] at ha; simp at ha
  by_cases hany : st.any (fun row => row.review_id == rid) = true
  · simp only [insert_review, hl', hid, ha', hany, if_true]
    rw [List.any_eq_true] at hany
    obtain ⟨row, hrow, heq⟩ := hany
    rw [beq_iff_eq] at heq
    exact List.mem_map.2 ⟨row, hrow, heq⟩
  · simp [insert_review, hl', hid, ha', hany]

/-- Ingesting the same list of parsed records a second time leaves the
store unchanged. -/
theorem foldl_insert_review_idem (l : List ReviewRec) :
    ∀ st : List ReviewRow,
      l.foldl insert_review (l.foldl insert_review st) = l.foldl insert_review st := by
  induction l with
  | nil => intro st; rfl
  | cons r t ih =>
    intro st
    simp only [List.foldl_cons]
    have hTr : insert_review (t.foldl insert_review (insert_review st r)) r
        = t.foldl insert_review (insert_review st r) := by
      rcases hi : r.review_id with _ | rid
      · rcases hl : r.location_id with _ | loc <;> rcases ha : r.rating with _ | rat <;>
          simp [insert_review, hl, hi, ha]
      · rcases hl : r.location_id with _ | loc
        · rcases ha : r.rating with _ | rat <;> simp [insert_review, hl, hi, ha]
        · rcases ha : r.rating with _ | rat
          · simp [insert_review, hl, hi, ha]
          · refine insert_review_noop _ r rid hi ?_
            refine ids_subset_foldl_insert_review t _ _ ?_
            exact mem_ids_insert_review_valid st r rid hi (by simp [hl]) (by simp [ha])
    rw [hTr, ih]

/-! ### C5 — review insertion is idempotent -/

/-- C5: inserting a review whose `review_id` already exists in the store is
a no-op (the existing row is never overwritten and the stored rows are
unchanged), and therefore ingesting the same parsed file twice produces
exactly the same store — and the same stored review count — as ingesting it
once. -/
theorem insert_review_idempotent :
    (∀ (st : List ReviewRow) (r : ReviewRec) (rid : String),
        r.review_id = some rid → rid ∈ st.map ReviewRow.review_id →
        insert_review st r = st)
    ∧ ∀ (st : List ReviewRow) (l : List ReviewRec),
        ingest_reviews (ingest_reviews st l).1 l = ((ingest_reviews st l).1, l.length) := by
  refine ⟨insert_review_noop, fun st l => ?_⟩
  unfold ingest_reviews
  rw [ingest_reviews_eq, ingest_reviews_eq]
  simp only [Prod.mk.injEq]
  exact ⟨foldl_insert_review_idem l st, by omega⟩

/-- Witness for C5: inserting a record with the already-stored id `r1` into
the one-review store leaves it unchanged. -/
theorem insert_review_idempotent_witness :
    ((mkRec "r1").review_id = some "r1" ∧ "r1" ∈ sampleDb1.map ReviewRow.review_id)
    ∧ insert_review sampleDb1 (mkRec "r1") = sampleDb1 :=
  ⟨⟨by decide, by decide⟩,
    insert_review_idempotent.1 sampleDb1 (mkRec "r1") "r1" (by decide) (by decide)⟩

/-! ### Helper lemmas for the enrichments table and the batch loop -/

/-- After `INSERT OR REPLACE`, the inserted enrichment is found by its key. -/
theorem lookupEnr_insert_self (st : List Enrichment) (e : Enrichment) :
    lookupEnr (insert_enrichment st e) e.review_id = some e := by
  unfold lookupEnr insert_enrichment
  rw [List.find?_append]
  have hnone : (st.filter (fun x => !(x.review_id == e.review_id))).find?
      (fun x => x.review_id == e.review_id) = none := by
    rw [List.find?_eq_none]
    intro x hx
    have := List.of_mem_filter hx
    simp at this
    simp [this]
  rw [hnone]
  simp

/-- Filtering by a predicate that holds wherever the searched one does
leaves `find?` unchanged. -/
theorem find?_filter_of_imp {α : Type} (p q : α → Bool)
    (himp : ∀ x, p x = true → q x = true) :
    ∀ l : List α, (l.filter q).find? p = l.find? p := by
  intro l
  induction l with
  | nil => rfl
  | cons a t ih =>
    cases hq : q a with
    | true =>
      cases hp : p a with
      | true => simp [List.filter_cons, hq, List.find?_cons, hp]
      | false => simp [List.filter_cons, hq, List.find?_cons, hp, ih]
    | false =>
      have hp : p a = false := by
        cases hpa : p a
        · rfl
        · exact absurd (himp a hpa) (by simp [hq])
      simp [List.filter_cons, hq, List.find?_cons, hp, ih]

/-- `INSERT OR REPLACE` leaves every other key untouched. -/
theorem lookupEnr_insert_ne (st : List Enrichment) (e : Enrichment) (id : String)
    (h : id ≠ e.review_id) :
    lookupEnr (insert_enrichment st e) id = lookupEnr st id := by
  unfold lookupEnr insert_enrichment
  rw [List.find?_append]
  have himp : ∀ x : Enrichment, (x.review_id == id) = true →
      (!(x.review_id == e.review_id)) = true := by
    intro x hx
    have hx' : x.review_id = id := by rwa [beq_iff_eq] at hx
    rw [hx']
    simp [h]
  rw [find?_filter_of_imp _ _ himp st]
  cases hst : st.find? (fun x => x.review_id == id) with
  | none =>
    have he : (e.review_id == id) = false := by
      simp only [beq_eq_false_iff_ne]
      exact fun hh => h hh.symm
    simp [List.find?_cons, he]
  | some v => simp

/-- A present key stays present through `INSERT OR REPLACE`. -/
theorem lookupEnr_insert_isSome (st : List Enrichment) (e : Enrichment) (id : String)
    (h : (lookupEnr st id).isSome) :
    (lookupEnr (insert_enrichment st e) id).isSome := by
  by_cases hid : id = e.review_id
  · subst hid; rw [lookupEnr_insert_self]; rfl
  · rw [lookupEnr_insert_ne st e id hid]; exact h

/-- Keys not named in a response list are untouched by its insertion fold. -/
theorem lookupEnr_foldl_not_mem (es : List Enrichment) :
    ∀ (st : List Enrichment) (id : String), id ∉ es.map Enrichment.review_id →
      lookupEnr (es.foldl insert_enrichment st) id = lookupEnr st id := by
  induction es with
  | nil => intro st id _; rfl
  | cons e t ih =>
    intro st id hid
    simp only [List.map_cons, List.mem_cons, not_or] at hid
    rw [List.foldl_cons, ih _ _ hid.2, lookupEnr_insert_ne st e id hid.1]

/-- Every key named in a response list is present after its insertion fold. -/
theorem lookupEnr_foldl_mem (es : List Enrichment) :
    ∀ (st : List Enrichment) (id : String), id ∈ es.map Enrichment.review_id →
      (lookupEnr (es.foldl insert_enrichment st) id).isSome := by
  induction es with
  | nil => intro st id h; simp at h
  | cons e t ih =>
    intro st id hid
    rw [List.foldl_cons]
    by_cases hmem : id ∈ t.map Enrichment.review_id
    · exact ih _ _ hmem
    · simp only [List.map_cons, List.mem_cons] at hid
      rcases hid with hid | hid
      · rw [lookupEnr_foldl_not_mem t _ _ hmem, hid, lookupEnr_insert_self]; rfl
      · exact absurd hid hmem

/-- A present key stays present through a whole insertion fold. -/
theorem lookupEnr_foldl_isSome (es : List Enrichment) :
    ∀ (st : List Enrichment) (id : String), (lookupEnr st id).isSome →
      (lookupEnr (es.foldl insert_enrichment st) id).isSome := by
  induction es with
  | nil => intro st id h; exact h
  | cons e t ih =>
    intro st id h
    exact ih _ _ (lookupEnr_insert_isSome st e id h)

/-- If every enrichment key in a nodup response is inserted, its own row is
found afterwards. -/
theorem lookupEnr_foldl_mem_eq (es : List Enrichment) :
    ∀ (st : List Enrichment) (e : Enrichment), e ∈ es →
      (es.map Enrichment.review_id).Nodup →
      lookupEnr (es.foldl insert_enrichment st) e.review_id = some e := by
  induction es with
  | nil => intro st e h _; simp at h
  | cons a t ih =>
    intro st e he hnd
    simp only [List.map_cons, List.nodup_cons] at hnd
    rw [List.foldl_cons]
    rcases List.mem_cons.1 he with he | he
    · subst he
      rw [lookupEnr_foldl_not_mem t _ _ hnd.1, lookupEnr_insert_self]
    · exact ih _ e he hnd.2

/-- At any fuel, the slices concatenate back to the input list. -/
theorem chunksFuel_flatten {α : Type} (bs : Nat) :
    ∀ (fuel : Nat) (l : List α), (chunksFuel bs fuel l).flatten = l := by
  intro fuel
  induction fuel with
  | zero => intro l; cases l <;> simp [chunksFuel]
  | succ f ih =>
    intro l
    cases l with
    | nil => rfl
    | cons x xs =>
      simp only [chunksFuel, List.flatten_cons, ih]
      simp [List.take_append_drop]

/-- The slicing loop covers the candidate list exactly. -/
theorem chunks_flatten {α : Type} (bs : Nat) (l : List α) : (chunks bs l).flatten = l :=
  chunksFuel_flatten bs l.length l

/-- Batches whose joined reviews do not mention a key never touch it. -/
theorem processBatches_notmem (oracle : List ReviewRow → Except String (List Enrichment)) :
    ∀ (bl : List (List ReviewRow)) (st : List Enrichment) (c : Nat) (id : String),
      (∀ b ∈ bl, respMatches (oracle b) b = true) →
      id ∉ bl.flatten.map ReviewRow.review_id →
      lookupEnr (processBatches oracle bl (st, c)).1 id = lookupEnr st id := by
  intro bl
  induction bl with
  | nil => intro st c id _ _; rfl
  | cons b rest ih =>
    intro st c id hok hid
    simp only [List.flatten_cons, List.map_append, List.mem_append, not_or] at hid
    have hokb := hok b (List.mem_cons_self b rest)
    have hokr : ∀ b' ∈ rest, respMatches (oracle b') b' = true :=
      fun b' hb' => hok b' (List.mem_cons_of_mem _ hb')
    cases ho : oracle b with
    | error msg =>
      rw [processBatches]
      simp only [ho]
      exact ih st c id hokr hid.2
    | ok es =>
      have hes : es.map Enrichment.review_id = b.map ReviewRow.review_id := by
        unfold respMatches at hokb
        rw [ho] at hokb
        exact of_decide_eq_true hokb
      rw [processBatches]
      simp only [ho]
      rw [ih _ _ id hokr hid.2]
      exact lookupEnr_foldl_not_mem es st id (by rw [hes]; exact hid.1)

/-- A present key stays present through the whole batch loop. -/
theorem processBatches_isSome (oracle : List ReviewRow → Except String (List Enrichment)) :
    ∀ (bl : List (List ReviewRow)) (st : List Enrichment) (c : Nat) (id : String),
      (lookupEnr st id).isSome →
      (lookupEnr (processBatches oracle bl (st, c)).1 id).isSome := by
  intro bl
  induction bl with
  | nil => intro st c id h; exact h
  | cons b rest ih =>
    intro st c id h
    cases ho : oracle b with
    | error msg =>
      rw [processBatches]; simp only [ho]; exact ih _ _ id h
    | ok es =>
      rw [processBatches]; simp only [ho]
      exact ih _ _ id (lookupEnr_foldl_isSome es st id h)

/-- Per-batch effect of the batch loop, for candidate lists with distinct
review ids and id-matching successful responses: a successful batch makes
every one of its reviews enriched; a failing batch leaves every one of its
reviews exactly as it was in the initial table. -/
theorem processBatches_spec (oracle : List ReviewRow → Except String (List Enrichment)) :
    ∀ (bl : List (List ReviewRow)) (st : List Enrichment) (c : Nat),
      (bl.flatten.map ReviewRow.review_id).Nodup →
      (∀ b ∈ bl, respMatches (oracle b) b = true) →
      ∀ b ∈ bl, ∀ r ∈ b,
        ((∃ es, oracle b = .ok es) →
          (lookupEnr (processBatches oracle bl (st, c)).1 r.review_id).isSome)
        ∧ (∀ msg, oracle b = .error msg →
          lookupEnr (processBatches oracle bl (st, c)).1 r.review_id
            = lookupEnr st r.review_id) := by
  intro bl
  induction bl with
  | nil => intro st c _ _ b hb; simp at hb
  | cons b0 rest ih =>
    intro st c hnd hok b hb r hr
    have hokb0 := hok b0 (List.mem_cons_self b0 rest)
    have hokr : ∀ b' ∈ rest, respMatches (oracle b') b' = true :=
      fun b' hb' => hok b' (List.mem_cons_of_mem _ hb')
    simp only [List.flatten_cons, List.map_append] at hnd
    rw [List.nodup_append] at hnd
    rcases List.mem_cons.1 hb with rfl | hbrest
    · cases ho : oracle b with
      | ok es =>
        refine ⟨fun _ => ?_, fun msg hmsg => by simp at hmsg⟩
        rw [processBatches]
        simp only [ho]
        refine processBatches_isSome oracle rest _ _ _ ?_
        refine lookupEnr_foldl_mem es st r.review_id ?_
        have hes : es.map Enrichment.review_id = b.map ReviewRow.review_id := by
          unfold respMatches at hokb0
          rw [ho] at hokb0
          exact of_decide_eq_true hokb0
        rw [hes]
        exact List.mem_map.2 ⟨r, hr, rfl⟩
      | error msg' =>
        refine ⟨fun hex => ?_, fun msg hmsg => ?_⟩
        · obtain ⟨es, hes⟩ := hex
          simp at hes
        · rw [processBatches]
          simp only [ho]
          refine processBatches_notmem oracle rest st c r.review_id hokr ?_
          intro hmem
          exact hnd.2.2 (List.mem_map.2 ⟨r, hr, rfl⟩) hmem
    · have hrflat : r.review_id ∈ rest.flatten.map ReviewRow.review_id :=
        List.mem_map.2 ⟨r, List.mem_flatten.2 ⟨b, hbrest, hr⟩, rfl⟩
      cases ho : oracle b0 with
      | ok es =>
        have hes : es.map Enrichment.review_id = b0.map ReviewRow.review_id := by
          unfold respMatches at hokb0
          rw [ho] at hokb0
          exact of_decide_eq_true hokb0
        have ihs := ih (es.foldl insert_enrichment st) (c + es.length)
          hnd.2.1 hokr b hbrest r hr
        have hnot : r.review_id ∉ es.map Enrichment.review_id := by
          rw [hes]
          intro hmem
          exact hnd.2.2 hmem hrflat
        refine ⟨fun hex => ?_, fun msg hmsg => ?_⟩
        · rw [processBatches]
          simp only [ho]
          exact ihs.1 hex
        · rw [processBatches]
          simp only [ho]
          rw [ihs.2 msg hmsg]
          exact lookupEnr_foldl_not_mem es st _ hnot
      | error msg' =>
        have ihs := ih st c hnd.2.1 hokr b hbrest r hr
        refine ⟨fun hex => ?_, fun msg hmsg => ?_⟩
        · rw [processBatches]
          simp only [ho]
          exact ihs.1 hex
        · rw [processBatches]
          simp only [ho]
          exact ihs.2 msg hmsg

/-! ### C1 — batch-failure isolation -/

/-- C1: for every candidate list (with its store-guaranteed distinct review
ids), every fixed batch size, every initial enrichments table and every
remote behaviour whose successful responses carry exactly the requested
review ids, `enrich_all_reviews` isolates failures at batch granularity: if
the remote call for a batch raises, no enrichment row is persisted for any
review of that batch (their table entries stay exactly as before), while
every review of every non-failing batch gains an enrichment. -/
theorem enrich_all_batch_failure_isolation
    (oracle : List ReviewRow → Except String (List Enrichment))
    (batchSize : Nat) (db : List ReviewRow) (loc : Option String)
    (limit : Option Nat) (st : List Enrichment)
    (hnd : ((get_reviews db loc none none (effLimit limit)).map ReviewRow.review_id).Nodup)
    (hok : ∀ b ∈ chunks batchSize (get_reviews db loc none none (effLimit limit)),
             respMatches (oracle b) b = true) :
    ∀ b ∈ chunks batchSize (get_reviews db loc none none (effLimit limit)), ∀ r ∈ b,
      ((∃ es, oracle b = .ok es) →
        (lookupEnr (enrich_all_reviews oracle batchSize db loc limit st).1 r.review_id).isSome)
      ∧ (∀ msg, oracle b = .error msg →
        lookupEnr (enrich_all_reviews oracle batchSize db loc limit st).1 r.review_id
          = lookupEnr st r.review_id) := by
  have hnd' : (((chunks batchSize (get_reviews db loc none none
      (effLimit limit))).flatten).map ReviewRow.review_id).Nodup := by
    rw [chunks_flatten]; exact hnd
  exact processBatches_spec oracle _ st 0 hnd' hok

/-- Witness for C1: three one-review batches where exactly the second
batch's remote call raises; afterwards `r1` and `r3` are enriched and `r2`
is not. -/
theorem enrich_all_batch_failure_isolation_witness :
    (((get_reviews sampleDb3 none none none (effLimit none)).map ReviewRow.review_id).Nodup
      ∧ (∀ b ∈ chunks 1 (get_reviews sampleDb3 none none none (effLimit none)),
           respMatches (failSecondOracle b) b = true))
    ∧ (lookupEnr (enrich_all_reviews failSecondOracle 1 sampleDb3 none none []).1 "r1").isSome
    ∧ lookupEnr (enrich_all_reviews failSecondOracle 1 sampleDb3 none none []).1 "r2" = none
    ∧ (lookupEnr (enrich_all_reviews failSecondOracle 1 sampleDb3 none none []).1 "r3").isSome := by
  have h := enrich_all_batch_failure_isolation failSecondOracle 1 sampleDb3 none none []
    (by decide) (by decide)
  refine ⟨⟨by decide, by decide⟩, ?_, ?_, ?_⟩
  · exact (h [mkRow "r1"] (by decide) (mkRow "r1") (by decide)).1 ⟨[mkEnr "r1"], rfl⟩
  · exact ((h [mkRow "r2"] (by decide) (mkRow "r2") (by decide)).2 "remote call failed"
      rfl).trans rfl
  · exact (h [mkRow "r3"] (by decide) (mkRow "r3") (by decide)).1 ⟨[mkEnr "r3"], rfl⟩

/-- `INSERT OR REPLACE` preserves key uniqueness of the enrichments table. -/
theorem insert_enrichment_nodup (st : List Enrichment) (e : Enrichment)
    (h : (st.map Enrichment.review_id).Nodup) :
    ((insert_enrichment st e).map Enrichment.review_id).Nodup := by
  unfold insert_enrichment
  rw [List.map_append, List.nodup_append]
  refine ⟨?_, List.nodup_singleton _, ?_⟩
  · have hsub : List.Sublist
        ((st.filter (fun x => !(x.review_id == e.review_id))).map Enrichment.review_id)
        (st.map Enrichment.review_id) := (List.filter_sublist st).map _
    exact h.sublist hsub
  · intro a ha hb
    obtain ⟨x, hx, rfl⟩ := List.mem_map.1 ha
    have hxf := List.of_mem_filter hx
    simp only [Bool.not_eq_true', beq_eq_false_iff_ne] at hxf
    simp only [List.map_cons, List.map_nil, List.mem_cons, List.not_mem_nil, or_false] at hb
    exact hxf hb

/-! ### C2 — the retry candidate set is NOT restricted to unenriched reviews -/

/-- Counterexample to C2: in a store whose single review `r1` already has an
enrichment, the candidate set that `enrich_all_reviews` selects (the plain
`get_reviews` query it issues) still contains `r1` — the selection has no
unenriched-state filter — so it is false that only unenriched reviews are
selected; moreover a re-invocation re-sends `r1` and overwrites its
enrichment row. -/
theorem enrich_candidates_not_only_unenriched_cex :
    (¬ ∀ r ∈ get_reviews sampleDb1 none none none (effLimit none),
        lookupEnr enrichedStore1 r.review_id = none)
    ∧ lookupEnr (enrich_all_reviews rewriteOracle 20 sampleDb1 none none enrichedStore1).1 "r1"
        ≠ lookupEnr enrichedStore1 "r1" := by
  exact ⟨by decide, by decide⟩

/-- C2 as amended: a re-invocation selects as candidates all stored reviews
up to the effective limit (optionally filtered by location) regardless of
enrichment state — the selection reads only the reviews table — and
re-enriching is nevertheless harmless: `INSERT OR REPLACE` overwrites the
existing row by key, keeps every other key untouched, and preserves key
uniqueness, so a retry re-processes enriched reviews but never duplicates
or corrupts enrichment rows. -/
theorem enrich_candidates_all_reviews_and_replace :
    (∀ (oracle : List ReviewRow → Except String (List Enrichment))
        (batchSize : Nat) (db : List ReviewRow) (loc : Option String)
        (limit : Option Nat) (st : List Enrichment),
        enrich_all_reviews oracle batchSize db loc limit st
          = processBatches oracle
              (chunks batchSize (get_reviews db loc none none (effLimit limit))) (st, 0))
    ∧ (∀ (st : List Enrichment) (e : Enrichment),
        lookupEnr (insert_enrichment st e) e.review_id = some e
        ∧ (∀ id, id ≠ e.review_id →
            lookupEnr (insert_enrichment st e) id = lookupEnr st id)
        ∧ ((st.map Enrichment.review_id).Nodup →
            ((insert_enrichment st e).map Enrichment.review_id).Nodup)) :=
  ⟨fun _ _ _ _ _ _ => rfl,
   fun st e => ⟨lookupEnr_insert_self st e,
     fun id h => lookupEnr_insert_ne st e id h,
     insert_enrichment_nodup st e⟩⟩

/-- Witness for the amended C2: replacing the `r1` enrichment keeps the
other key `x` untouched and preserves key uniqueness. -/
theorem enrich_candidates_all_reviews_and_replace_witness :
    ("x" ≠ (mkEnr "r1").review_id ∧ (enrichedStore1.map Enrichment.review_id).Nodup)
    ∧ lookupEnr (insert_enrichment enrichedStore1 (mkEnr "r1")) "x"
        = lookupEnr enrichedStore1 "x"
    ∧ ((insert_enrichment enrichedStore1 (mkEnr "r1")).map Enrichment.review_id).Nodup :=
  ⟨⟨by decide, by decide⟩,
   (enrich_candidates_all_reviews_and_replace.2 enrichedStore1 (mkEnr "r1")).2.1 "x" (by decide),
   (enrich_candidates_all_reviews_and_replace.2 enrichedStore1 (mkEnr "r1")).2.2 (by decide)⟩

/-! ### C3 — a non-raising id-set mismatch is NOT treated as batch failure -/

/-- Counterexample to C3: the annotation service may return, without
raising, a response whose review-id set is a strict subset of the request
(spec §6); on the two-review store the single batch gets a one-enrichment
response, the id-set check `respMatches` fails, and yet the processor
persists that row — it is false that zero enrichment rows are persisted for
the batch. -/
theorem mismatched_response_persists_rows_cex :
    respMatches (subsetOracle (get_reviews sampleDb2 none none none (effLimit none)))
        (get_reviews sampleDb2 none none none (effLimit none)) = false
    ∧ ¬ (∀ r ∈ get_reviews sampleDb2 none none none (effLimit none),
          lookupEnr (enrich_all_reviews subsetOracle 20 sampleDb2 none none []).1 r.review_id
            = lookupEnr [] r.review_id) := by
  exact ⟨by decide, by decide⟩

/-- C3 as amended: the processor performs no response validation — on any
non-raising response, matching id set or not, it persists exactly the
returned enrichments (each row findable by its key afterwards) and counts
them; only a raised exception is treated as batch failure. -/
theorem ok_response_persisted_without_validation
    (oracle : List ReviewRow → Except String (List Enrichment))
    (b : List ReviewRow) (es : List Enrichment) (st : List Enrichment) (c : Nat)
    (h : oracle b = .ok es) :
    (processBatches oracle [b] (st, c)).1 = es.foldl insert_enrichment st
    ∧ (processBatches oracle [b] (st, c)).2 = c + es.length
    ∧ ((es.map Enrichment.review_id).Nodup →
        ∀ e ∈ es, lookupEnr (processBatches oracle [b] (st, c)).1 e.review_id = some e) := by
  have heq : processBatches oracle [b] (st, c)
      = (es.foldl insert_enrichment st, c + es.length) := by
    rw [processBatches]
    simp only [h]
    rw [processBatches]
  refine ⟨by rw [heq], by rw [heq], fun hnd e he => ?_⟩
  rw [heq]
  exact lookupEnr_foldl_mem_eq es st e he hnd

/-- Witness for the amended C3: the strict-subset response `[r1-enrichment]`
to the batch `[r1, r2]` is persisted wholesale and found by key. -/
theorem ok_response_persisted_without_validation_witness :
    (subsetOracle [mkRow "r1", mkRow "r2"] = .ok [mkEnr "r1"]
      ∧ (([mkEnr "r1"].map Enrichment.review_id)).Nodup)
    ∧ (processBatches subsetOracle [[mkRow "r1", mkRow "r2"]] ([], 0)).1
        = [mkEnr "r1"].foldl insert_enrichment []
    ∧ lookupEnr (processBatches subsetOracle [[mkRow "r1", mkRow "r2"]] ([], 0)).1 "r1"
        = some (mkEnr "r1") := by
  have h := ok_response_persisted_without_validation subsetOracle
    [mkRow "r1", mkRow "r2"] [mkEnr "r1"] [] 0 rfl
  exact ⟨⟨rfl, by decide⟩, h.1, h.2.2 (by decide) (mkEnr "r1") (by decide)⟩

/-! ### C4 — zero-norm vectors get NaN, not the minimum score -/

/-- Counterexample to C4: for the query vector `[1, 0]` and the stored
zero-norm vector `[0, 0]`, the similarity the source computes is the
division-by-zero value NaN (`none` in the model) — in particular it is not
`some` of any score at all, hence not the minimum possible score, and no
ranking guarantee about it can hold. -/
theorem zero_norm_similarity_not_minimum_cex :
    cosineSimVal [(1 : ℚ), 0] [(0 : ℚ), 0] = none
    ∧ ¬ ∃ p : ℚ × ℚ, cosineSimVal [(1 : ℚ), 0] [(0 : ℚ), 0] = some p := by
  have hnone : cosineSimVal [(1 : ℚ), 0] [(0 : ℚ), 0] = none := by
    norm_num [cosineSimVal, normSq]
  refine ⟨hnone, ?_⟩
  rintro ⟨p, hp⟩
  rw [hnone] at hp
  exact Option.noConfusion hp

/-- C4 as amended: `search_similar` raises no division fault — NumPy turns
the zero division into the float NaN — but a zero-norm query or stored
vector makes the computed similarity NaN (undefined, modelled `none`), not
the minimum possible score, and only vectors of nonzero norm get the
defined cosine value. -/
theorem zero_norm_similarity_nan (q v : List ℚ) :
    (normSq q = 0 ∨ normSq v = 0 → cosineSimVal q v = none)
    ∧ (normSq q ≠ 0 → normSq v ≠ 0 → cosineSimVal q v = some (simRaw q v)) := by
  constructor
  · intro h
    unfold cosineSimVal
    rw [if_pos h]
  · intro h1 h2
    unfold cosineSimVal
    rw [if_neg (by tauto)]

/-- Witness for the amended C4 at concrete vectors. -/
theorem zero_norm_similarity_nan_witness :
    (normSq [(0 : ℚ), 0] = 0 ∧ normSq [(1 : ℚ), 0] ≠ 0 ∧ normSq [(0 : ℚ), 1] ≠ 0)
    ∧ cosineSimVal [(1 : ℚ), 0] [(0 : ℚ), 0] = none
    ∧ cosineSimVal [(1 : ℚ), 0] [(0 : ℚ), 1] = some (simRaw [(1 : ℚ), 0] [(0 : ℚ), 1]) :=
  ⟨⟨by norm_num [normSq], by norm_num [normSq], by norm_num [normSq]⟩,
   (zero_norm_similarity_nan [(1 : ℚ), 0] [(0 : ℚ), 0]).1 (Or.inr (by norm_num [normSq])),
   (zero_norm_similarity_nan [(1 : ℚ), 0] [(0 : ℚ), 1]).2
     (by norm_num [normSq]) (by norm_num [normSq])⟩

/-! ### Helper lemmas for similarity ordering -/

/-- A squared norm is nonnegative. -/
theorem normSq_nonneg (v : List ℚ) : 0 ≤ normSq v := by
  unfold normSq
  refine List.sum_nonneg ?_
  intro x hx
  obtain ⟨a, _, rfl⟩ := List.mem_map.1 hx
  exact mul_self_nonneg a

/-- On pairs with positive squared denominators, the decidable comparison
`simLe` coincides with comparison of the real cosine scores. -/
theorem simLe_iff_score_le (x y : ℚ × ℚ) (hx : 0 < x.2) (hy : 0 < y.2) :
    simLe x y = true ↔ score x ≤ score y := by
  have hxR : (0 : ℝ) < (x.2 : ℝ) := by exact_mod_cast hx
  have hyR : (0 : ℝ) < (y.2 : ℝ) := by exact_mod_cast hy
  have hsx : 0 < Real.sqrt (x.2 : ℝ) := Real.sqrt_pos.2 hxR
  have hsy : 0 < Real.sqrt (y.2 : ℝ) := Real.sqrt_pos.2 hyR
  unfold score simLe
  rw [if_neg (not_le.2 hx), if_neg (not_le.2 hy), div_le_div_iff₀ hsx hsy]
  by_cases hx1 : 0 ≤ x.1
  · rw [if_pos hx1]
    by_cases hy1 : y.1 < 0
    · rw [if_pos hy1]
      simp only [Bool.false_eq_true, false_iff, not_le]
      calc (y.1 : ℝ) * Real.sqrt (x.2 : ℝ)
          < 0 := mul_neg_of_neg_of_pos (by exact_mod_cast hy1) hsx
        _ ≤ (x.1 : ℝ) * Real.sqrt (y.2 : ℝ) := mul_nonneg (by exact_mod_cast hx1) hsy.le
    · rw [if_neg hy1]
      push_neg at hy1
      rw [decide_eq_true_eq]
      have hax : 0 ≤ (x.1 : ℝ) * Real.sqrt (y.2 : ℝ) :=
        mul_nonneg (by exact_mod_cast hx1) hsy.le
      have hay : 0 ≤ (y.1 : ℝ) * Real.sqrt (x.2 : ℝ) :=
        mul_nonneg (by exact_mod_cast hy1) hsx.le
      rw [← pow_le_pow_iff_left₀ hax hay (two_ne_zero), mul_pow, mul_pow,
        Real.sq_sqrt hyR.le, Real.sq_sqrt hxR.le]
      constructor
      · intro h; exact_mod_cast h
      · intro h; exact_mod_cast h
  · rw [if_neg hx1]
    push_neg at hx1
    by_cases hy1 : 0 ≤ y.1
    · rw [if_pos hy1]
      simp only [true_iff]
      calc (x.1 : ℝ) * Real.sqrt (y.2 : ℝ)
          ≤ 0 := (mul_neg_of_neg_of_pos (by exact_mod_cast hx1) hsy).le
        _ ≤ (y.1 : ℝ) * Real.sqrt (x.2 : ℝ) := mul_nonneg (by exact_mod_cast hy1) hsx.le
    · rw [if_neg hy1]
      push_neg at hy1
      rw [decide_eq_true_eq]
      have hax : (x.1 : ℝ) * Real.sqrt (y.2 : ℝ) ≤ 0 :=
        (mul_neg_of_neg_of_pos (by exact_mod_cast hx1) hsy).le
      have hay : (y.1 : ℝ) * Real.sqrt (x.2 : ℝ) ≤ 0 :=
        (mul_neg_of_neg_of_pos (by exact_mod_cast hy1) hsx).le
      have hnb : 0 ≤ -((y.1 : ℝ) * Real.sqrt (x.2 : ℝ)) := by linarith
      have hna : 0 ≤ -((x.1 : ℝ) * Real.sqrt (y.2 : ℝ)) := by linarith
      rw [show ((x.1 : ℝ) * Real.sqrt (y.2 : ℝ) ≤ (y.1 : ℝ) * Real.sqrt (x.2 : ℝ))
            ↔ -((y.1 : ℝ) * Real.sqrt (x.2 : ℝ)) ≤ -((x.1 : ℝ) * Real.sqrt (y.2 : ℝ))
          from ⟨fun h => by linarith, fun h => by linarith⟩]
      have e1 : (-((y.1 : ℝ) * Real.sqrt (x.2 : ℝ))) ^ 2 = (y.1 : ℝ) ^ 2 * (x.2 : ℝ) := by
        rw [neg_sq, mul_pow, Real.sq_sqrt hxR.le]
      have e2 : (-((x.1 : ℝ) * Real.sqrt (y.2 : ℝ))) ^ 2 = (x.1 : ℝ) ^ 2 * (y.2 : ℝ) := by
        rw [neg_sq, mul_pow, Real.sq_sqrt hyR.le]
      rw [← pow_le_pow_iff_left₀ hnb hna (two_ne_zero), e1, e2]
      constructor
      · intro h; exact_mod_cast h
      · intro h; exact_mod_cast h

/-- The similarity comparison is total. -/
theorem simLe_total (x y : ℚ × ℚ) : simLe x y = true ∨ simLe y x = true := by
  by_cases hx : x.2 ≤ 0
  · left; unfold simLe; rw [if_pos hx]
  · by_cases hy : y.2 ≤ 0
    · right; unfold simLe; rw [if_pos hy]
    · have hx' : 0 < x.2 := not_le.1 hx
      have hy' : 0 < y.2 := not_le.1 hy
      rcases le_total (score x) (score y) with h | h
      · exact Or.inl ((simLe_iff_score_le x y hx' hy').2 h)
      · exact Or.inr ((simLe_iff_score_le y x hy' hx').2 h)

/-- The similarity comparison is transitive. -/
theorem simLe_trans (x y z : ℚ × ℚ) (h1 : simLe x y = true) (h2 : simLe y z = true) :
    simLe x z = true := by
  by_cases hx : x.2 ≤ 0
  · unfold simLe; rw [if_pos hx]
  · have hx' : 0 < x.2 := not_le.1 hx
    by_cases hy : y.2 ≤ 0
    · exfalso
      unfold simLe at h1
      rw [if_neg hx, if_pos hy] at h1
      exact Bool.false_ne_true h1
    · have hy' : 0 < y.2 := not_le.1 hy
      by_cases hz : z.2 ≤ 0
      · exfalso
        unfold simLe at h2
        rw [if_neg hy, if_pos hz] at h2
        exact Bool.false_ne_true h2
      · have hz' : 0 < z.2 := not_le.1 hz
        exact (simLe_iff_score_le x z hx' hz').2
          (le_trans ((simLe_iff_score_le x y hx' hy').1 h1)
            ((simLe_iff_score_le y z hy' hz').1 h2))

/-! ### C6 — similarity search: descending scores, truncation to k -/

/-- C6: for every review store, every set of stored embeddings of nonzero
norm and every nonzero-norm query vector, `search_similar` returns at most
`k` results, and their cosine-similarity scores are in non-increasing
(descending) order.  (Zero-norm vectors produce NaN scores and are settled
separately under the zero-norm claim.) -/
theorem search_similar_sorted_truncated
    (db : List ReviewRow) (embs : List (String × List ℚ)) (qv : List ℚ) (k : Nat)
    (hq : normSq qv ≠ 0) (hv : ∀ p ∈ embs, normSq p.2 ≠ 0) :
    (search_similar db embs qv k).length ≤ k
    ∧ List.Pairwise (fun a b : ReviewRow × (ℚ × ℚ) => score b.2 ≤ score a.2)
        (search_similar db embs qv k) := by
  have hexp : search_similar db embs qv k
      = ((List.insertionSort simDescRel (embs.map (fun p => (p.1, simRaw qv p.2)))).take k).filterMap
          (fun p => (db.find? (fun row => row.review_id == p.1)).map (fun row => (row, p.2))) :=
    rfl
  constructor
  · rw [hexp]
    calc (((List.insertionSort simDescRel
          (embs.map (fun p => (p.1, simRaw qv p.2)))).take k).filterMap _).length
        ≤ ((List.insertionSort simDescRel
          (embs.map (fun p => (p.1, simRaw qv p.2)))).take k).length :=
          List.length_filterMap_le _ _
      _ ≤ k := List.length_take_le _ _
  · haveI : IsTotal (String × (ℚ × ℚ)) simDescRel := by
      constructor
      intro a b
      unfold simDescRel
      rcases simLe_total b.2 a.2 with h | h
      · exact Or.inl h
      · exact Or.inr h
    haveI : IsTrans (String × (ℚ × ℚ)) simDescRel := by
      constructor
      intro a b c h1 h2
      exact simLe_trans c.2 b.2 a.2 h2 h1
    have hpos : ∀ p ∈ embs.map (fun p => (p.1, simRaw qv p.2)), 0 < p.2.2 := by
      intro p hp
      obtain ⟨w, hw, rfl⟩ := List.mem_map.1 hp
      have h1 : 0 < normSq qv := lt_of_le_of_ne (normSq_nonneg qv) (Ne.symm hq)
      have h2 : 0 < normSq w.2 := lt_of_le_of_ne (normSq_nonneg w.2) (Ne.symm (hv w hw))
      exact mul_pos h1 h2
    have hsorted : List.Pairwise simDescRel
        (List.insertionSort simDescRel (embs.map (fun p => (p.1, simRaw qv p.2)))) :=
      List.sorted_insertionSort simDescRel _
    have hmem : ∀ p ∈ List.insertionSort simDescRel
        (embs.map (fun p => (p.1, simRaw qv p.2))), 0 < p.2.2 := by
      intro p hp
      exact hpos p ((List.mem_insertionSort simDescRel).1 hp)
    have hpair : List.Pairwise (fun a b : String × (ℚ × ℚ) => score b.2 ≤ score a.2)
        (List.insertionSort simDescRel (embs.map (fun p => (p.1, simRaw qv p.2)))) := by
      refine List.Pairwise.imp_of_mem ?_ hsorted
      intro a b ha hb hrel
      exact (simLe_iff_score_le b.2 a.2 (hmem b hb) (hmem a ha)).1 hrel
    have hpair2 : List.Pairwise (fun a b : String × (ℚ × ℚ) => score b.2 ≤ score a.2)
        ((List.insertionSort simDescRel (embs.map (fun p => (p.1, simRaw qv p.2)))).take k) :=
      hpair.take
    rw [hexp]
    refine List.Pairwise.filterMap _ ?_ hpair2
    intro a b hab x hx y hy
    rcases hfa : List.find? (fun row => row.review_id == a.1) db with _ | ra
    · rw [hfa] at hx; exact absurd hx (by simp)
    rcases hfb : List.find? (fun row => row.review_id == b.1) db with _ | rb
    · rw [hfb] at hy; exact absurd hy (by simp)
    rw [hfa] at hx
    rw [hfb] at hy
    have hx' : x = (ra, a.2) := by
      have hh : some (ra, a.2) = some x := hx
      exact (Option.some.inj hh).symm
    have hy' : y = (rb, b.2) := by
      have hh : some (rb, b.2) = some y := hy
      exact (Option.some.inj hh).symm
    rw [hx', hy']
    exact hab

/-- Witness for C6 on a two-embedding store with query `[1, 0]` and `k = 5`. -/
theorem search_similar_sorted_truncated_witness :
    (normSq [(1 : ℚ), 0] ≠ 0
      ∧ ∀ p ∈ [("r1", [(1 : ℚ), 0]), ("r2", [(0 : ℚ), 1])], normSq p.2 ≠ 0)
    ∧ (search_similar sampleDb2 [("r1", [(1 : ℚ), 0]), ("r2", [(0 : ℚ), 1])]
        [(1 : ℚ), 0] 5).length ≤ 5
    ∧ List.Pairwise (fun a b : ReviewRow × (ℚ × ℚ) => score b.2 ≤ score a.2)
        (search_similar sampleDb2 [("r1", [(1 : ℚ), 0]), ("r2", [(0 : ℚ), 1])]
          [(1 : ℚ), 0] 5) := by
  have h := search_similar_sorted_truncated sampleDb2
    [("r1", [(1 : ℚ), 0]), ("r2", [(0 : ℚ), 1])] [(1 : ℚ), 0] 5
    (by norm_num [normSq]) (by norm_num [normSq])
  exact ⟨⟨by norm_num [normSq], by norm_num [normSq]⟩, h.1, h.2⟩

/-! ### Helper lemmas for the chat engine -/

/-- `search_similar` returns at most `limit` results, unconditionally. -/
theorem search_similar_length_le (db : List ReviewRow) (embs : List (String × List ℚ))
    (qv : List ℚ) (k : Nat) : (search_similar db embs qv k).length ≤ k := by
  calc (search_similar db embs qv k).length
      ≤ ((List.insertionSort simDescRel
          (embs.map (fun p => (p.1, simRaw qv p.2)))).take k).length :=
        List.length_filterMap_le _ _
    _ ≤ k := List.length_take_le _ _

/-- `get_reviews` returns at most `limit` rows. -/
theorem get_reviews_length_le (db : List ReviewRow) (loc : Option String)
    (minR maxR : Option ℚ) (limit : Nat) :
    (get_reviews db loc minR maxR limit).length ≤ limit :=
  List.length_take_le _ _

/-- With a non-empty location filter and no rating filters, every returned
row belongs to that location. -/
theorem get_reviews_location_none (db : List ReviewRow) (l : String) (hl : l ≠ "")
    (limit : Nat) :
    ∀ r ∈ get_reviews db (some l) none none limit, r.location_id = l := by
  intro r hr
  simp only [get_reviews, truthyStr, truthyRat, hl, if_false] at hr
  have hr1 := List.mem_of_mem_take hr
  rw [List.mem_insertionSort] at hr1
  have hmem := List.of_mem_filter hr1
  rwa [beq_iff_eq] at hmem

/-! ### C9 — responder context sourcing -/

/-- C9: with `use_semantic` the chat engine sources its context from the
top-5 semantic search results (k fixed at 5), identically for every
supplied `location_id`; without it, it sources the most recent reviews for
the given location, bounded at 10 and all matching that location. -/
theorem chat_context_sourcing (db : List ReviewRow) (embs : List (String × List ℚ))
    (qv : List ℚ) (loc loc' : Option String) (l : String) :
    chatContextReviews db embs qv loc true = (search_similar db embs qv 5).map Prod.fst
    ∧ chatContextReviews db embs qv loc true = chatContextReviews db embs qv loc' true
    ∧ (chatContextReviews db embs qv loc true).length ≤ 5
    ∧ chatContextReviews db embs qv loc false = get_reviews db loc none none 10
    ∧ (chatContextReviews db embs qv loc false).length ≤ 10
    ∧ (l ≠ "" → ∀ r ∈ chatContextReviews db embs qv (some l) false, r.location_id = l) := by
  refine ⟨rfl, rfl, ?_, rfl, ?_, ?_⟩
  · show ((search_similar db embs qv 5).map Prod.fst).length ≤ 5
    rw [List.length_map]
    exact search_similar_length_le db embs qv 5
  · show (get_reviews db loc none none 10).length ≤ 10
    exact get_reviews_length_le db loc none none 10
  · intro hl r hr
    exact get_reviews_location_none db l hl 10 r hr

/-- Witness for C9: the non-semantic path on the one-review store with
location "JFK" only returns JFK rows. -/
theorem chat_context_sourcing_witness :
    "JFK" ≠ ""
    ∧ ∀ r ∈ chatContextReviews sampleDb1 [] [] (some "JFK") false, r.location_id = "JFK" :=
  ⟨by decide,
   (chat_context_sourcing sampleDb1 [] [] (some "JFK") none "JFK").2.2.2.2.2 (by decide)⟩
